import Mathlib

/-!
Verification of the PDF outline extraction / sectionizing / ranking pipeline
(`1B.py`).  The Python source is shallowly embedded: every definition below
mirrors one function or code fragment of the source; machine floats (font
sizes, bounding-box coordinates, similarity scores) are modelled as rationals,
Python strings as Lean `String`/`List Char`, and the external collaborators
(PDF decoder, embedding model) as explicit inputs.
-/

namespace PDF1B

/-! ### Character and string primitives (Python `str` operations, `re` patterns) -/

/-- Python whitespace (`\s`, `str.split`, `str.strip`) restricted to the ASCII
whitespace characters that the decoder can produce. -/
def isPySpace (c : Char) : Bool :=
  c = ' ' || c = '\t' || c = '\n' || c = '\r' || c = '\x0b' || c = '\x0c'

/-- Regex class `[a-zA-Z]` (`re.search('[a-zA-Z]', text)`). -/
def isAsciiAlpha (c : Char) : Bool :=
  ('a' ≤ c && c ≤ 'z') || ('A' ≤ c && c ≤ 'Z')

/-- Regex class `[a-zA-Z\d]`. -/
def isAlnumA (c : Char) : Bool :=
  isAsciiAlpha c || c.isDigit

/-- `re.search('[a-zA-Z]', s)` as a Boolean. -/
def hasAlpha (cs : List Char) : Bool :=
  cs.any isAsciiAlpha

/-- `Python str.strip()`: drop whitespace from both ends. -/
def stripChars (cs : List Char) : List Char :=
  ((cs.dropWhile isPySpace).reverse.dropWhile isPySpace).reverse

/-- Auxiliary for `pySplit`: `cur` holds the current word reversed. -/
def pySplitAux : List Char → List Char → List (List Char)
  | [], [] => []
  | [], cur => [cur.reverse]
  | c :: rest, cur =>
    if isPySpace c then
      match cur with
      | [] => pySplitAux rest []
      | _ => cur.reverse :: pySplitAux rest []
    else pySplitAux rest (c :: cur)

/-- Python `str.split()` with no argument: split on whitespace runs, no empty
words. -/
def pySplit (cs : List Char) : List (List Char) :=
  pySplitAux cs []

/-- Join a word list with single spaces (Python space-join). -/
def joinSpace : List (List Char) → List Char
  | [] => []
  | [w] => w
  | w :: ws => w ++ ' ' :: joinSpace ws

/-- The space-join of `s.split()`: whitespace normalisation used on heading
texts. -/
def normText (s : String) : String :=
  (joinSpace (pySplit s.toList)).asString

/-- Does `needle` occur at the head of the list (regex anchored match helper,
Python `in` helper)? -/
def startsL : List Char → List Char → Bool
  | [], _ => true
  | _ :: _, [] => false
  | a :: as, b :: bs => a = b && startsL as bs

/-- Python `needle in hay` (contiguous substring test). -/
def hasSub (needle : List Char) : List Char → Bool
  | [] => startsL needle []
  | c :: t => startsL needle (c :: t) || hasSub needle t

/-- Suffix test (used for the regex `\.(pdf|docx?|...)$`). -/
def endsL (suffix l : List Char) : Bool :=
  startsL suffix.reverse l.reverse

/-- `re.search(r'\.{4,}', text)`: a run of four or more periods. -/
def fourDots : List Char → Bool
  | '.' :: '.' :: '.' :: '.' :: _ => true
  | _ :: r => fourDots r
  | [] => false

/-- `text.endswith(('.', ',', ';', ':'))`. -/
def endsBad (cs : List Char) : Bool :=
  match cs.getLast? with
  | some c => c = '.' || c = ',' || c = ';' || c = ':'
  | none => false

/-- The literal character class of the list-item regex in the source,
`[â€¢*-]`: the three mojibake characters (a mis-encoded bullet) plus the
asterisk and the hyphen. -/
def bulletChars : List Char :=
  ['â', '€', '¢', '*', '-']

/-- After one or more `[a-zA-Z\d]` characters: accept more of them, then a
closing parenthesis followed by whitespace (`[a-zA-Z\d]+\)\s+`). -/
def alnumParen : List Char → Bool
  | c :: rest =>
    if isAlnumA c then alnumParen rest
    else if c = ')' then
      match rest with
      | t :: _ => isPySpace t
      | [] => false
    else false
  | [] => false

/-- `re.match(r'^\s*([â€¢*-]|[a-zA-Z\d]+\))\s+', text)` as a Boolean. -/
def listItemStart (cs : List Char) : Bool :=
  match cs.dropWhile isPySpace with
  | [] => false
  | c :: tl =>
    if c ∈ bulletChars then
      match tl with
      | t :: _ => isPySpace t
      | [] => false
    else if isAlnumA c then alnumParen tl
    else false

/-- Scanner for `^\s*(\d+(\.\d+)*)\s+` positioned just after a digit, counting
the periods of the numbering group; greedy matching is exact here because the
pattern can never succeed through backtracking (a shorter digit run leaves a
digit or period where whitespace is required). -/
def dotScan : List Char → Nat → Option Nat
  | [], _ => none
  | c :: rest, n =>
    if isPySpace c then some n
    else if c.isDigit then dotScan rest n
    else if c = '.' then
      match rest with
      | d :: rest2 => if d.isDigit then dotScan rest2 (n + 1) else none
      | [] => none
    else none

/-- `list_item_pattern.match(text)` for `^\s*(\d+(\.\d+)*)\s+`, returning
`match.group(1).count('.')` when the numbering pattern matches. -/
def numDots (cs : List Char) : Option Nat :=
  match cs.dropWhile isPySpace with
  | c :: rest => if c.isDigit then dotScan rest 0 else none
  | [] => none

/-- Python `round` of the fraction `p / q` (with `q > 0`), expressed in
integer arithmetic: round half to even (banker's rounding).  `p.fdiv q` is
the floor of the fraction and `2 * (p - f * q)` compares the doubled
fractional remainder against `q` in place of comparing the fraction against
one half. -/
def pyRoundFrac (p q : ℤ) : ℤ :=
  let f := p.fdiv q
  let r2 := 2 * (p - f * q)
  if r2 < q then f
  else if q < r2 then f + 1
  else if f % 2 = 0 then f else f + 1

/-- Python `round` on a rational, as applied to decoder font sizes. -/
def pyRound (x : ℚ) : ℤ :=
  pyRoundFrac x.num (x.den : ℤ)

/-! ### Counting helpers (`collections.Counter`, `defaultdict(int)`) -/

/-- Add `v` to the count of key `k`, keeping first-insertion order
(the behaviour of `defaultdict(int)` / `Counter` updates). -/
def bumpCount {α : Type} [DecidableEq α] : List (α × Nat) → α → Nat → List (α × Nat)
  | [], k, v => [(k, v)]
  | (k1, v1) :: rest, k, v =>
    if k1 = k then (k1, v1 + v) :: rest else (k1, v1) :: bumpCount rest k v

/-- Count of key `k` in an association list (0 when absent). -/
def cnt {α : Type} [DecidableEq α] : List (α × Nat) → α → Nat
  | [], _ => 0
  | (k1, v1) :: rest, k => if k1 = k then v1 else cnt rest k

/-- Counter over a list of items (each occurrence adds one), insertion order. -/
def countsOf {α : Type} [DecidableEq α] (l : List α) : List (α × Nat) :=
  l.foldl (fun acc k => bumpCount acc k 1) []

/-- First pair with the maximal count: both Python `max(d, key=d.get)` and
`Counter.most_common(1)[0]` keep the earliest-inserted key on ties. -/
def maxPair {α : Type} : α × Nat → List (α × Nat) → α × Nat
  | p, [] => p
  | p, q :: rest => if q.2 > p.2 then maxPair q rest else maxPair p rest

/-- First key with the maximal count, `none` on the empty table. -/
def maxByFirst {α : Type} : List (α × Nat) → Option α
  | [] => none
  | p :: rest => some (maxPair p rest).1

/-! ### A stable sort (Python `sorted` is a stable sort) -/

/-- Insert `x` before the first element `y` with `le x y`; used under `foldr`
this realises a stable sort for the preorder `le`. -/
def insBefore {α : Type} (le : α → α → Bool) (x : α) : List α → List α
  | [] => [x]
  | y :: ys => if le x y then x :: y :: ys else y :: insBefore le x ys

/-- Stable sort by the Boolean preorder `le` (Python `sorted`). -/
def stableSortBy {α : Type} (le : α → α → Bool) (l : List α) : List α :=
  l.foldr (insBefore le) []

/-! ### Data model -/

/-- A (rounded font size, bold) pair; the typographic class key of the
pipeline (`dominant_style` tuples). -/
structure Style where
  size : ℤ
  bold : Bool
deriving DecidableEq, Repr

/-- A bounding box `(x0, y0, x1, y1)`; `y0` is the top coordinate and `y1`
the bottom one (page coordinates grow downwards). -/
structure BBox where
  x0 : ℚ
  y0 : ℚ
  x1 : ℚ
  y1 : ℚ
deriving DecidableEq, Repr

/-- A raw glyph span as produced by the decoder: text, (float) font size and
font name. -/
structure Span where
  text : String
  size : ℚ
  font : String
deriving DecidableEq, Repr

/-- A raw layout block of the decoder page dictionary: its type (`0` for
text), bounding box and lines of spans. -/
structure RawBlock where
  btype : Nat
  bbox : BBox
  lines : List (List Span)
deriving DecidableEq, Repr

/-- A reconstructed logical text block (the dict appended in
`_get_text_blocks`). -/
structure Block where
  text : String
  style : Style
  bbox : BBox
  pageNum : Nat
  numLines : Nat
  numWords : Nat
deriving DecidableEq, Repr

/-- A heading entry of the outline; `level = n` stands for the string `"Hn"`;
`bbox` is `none` on the native-outline path. -/
structure HeadingEntry where
  text : String
  level : Nat
  pageNum : Nat
  bbox : Option BBox
deriving DecidableEq, Repr

/-- One `(level, text, page)` triple of `doc.get_toc()`; pages are the
1-based page numbers the decoder reports. -/
structure TocEntry where
  level : ℤ
  text : String
  page : Nat
deriving DecidableEq, Repr

/-! ### Pass 1: `_get_text_blocks` -/

/-- `_is_bold_by_name`: case-insensitive substring match of the font name
against the bold markers. -/
def is_bold_by_name (fontName : String) : Bool :=
  let low := fontName.toList.map Char.toLower
  hasSub ("bold".toList) low || hasSub ("black".toList) low ||
  hasSub ("heavy".toList) low || hasSub ("condb".toList) low ||
  hasSub ("cbi".toList) low

/-- The style of one span: `(round(span['size']), _is_bold_by_name(span['font']))`. -/
def spanStyle (s : Span) : Style :=
  ⟨pyRound s.size, is_bold_by_name s.font⟩

/-- `block_text`: concatenation of all span texts, each followed by a space. -/
def blockTextChars (lines : List (List Span)) : List Char :=
  (lines.map (fun ln => (ln.map (fun s => s.text.toList ++ [' '])).flatten)).flatten

/-- The span styles of a raw block in document order. -/
def blockStyles (lines : List (List Span)) : List Style :=
  (lines.map (fun ln => ln.map spanStyle)).flatten

/-- One iteration of the block loop of `_get_text_blocks` for a raw block on
page `pageNum`: skip non-text blocks, blocks with no alphabetic character or
empty stripped text, and blocks with no spans; otherwise emit the logical
block with its dominant style, line count and word count. -/
def mkBlock (pageNum : Nat) (rb : RawBlock) : Option Block :=
  if rb.btype ≠ 0 then none
  else
    let cs := blockTextChars rb.lines
    if stripChars cs = [] then none
    else if ¬ hasAlpha cs then none
    else
      match maxByFirst (countsOf (blockStyles rb.lines)) with
      | none => none
      | some st =>
        some ⟨(stripChars cs).asString, st, rb.bbox, pageNum,
              rb.lines.length, (pySplit cs).length⟩

/-- `_get_text_blocks` over the pages starting at 1-based page `n`. -/
def getTextBlocksFrom (n : Nat) : List (List RawBlock) → List Block
  | [] => []
  | pg :: rest => pg.filterMap (mkBlock n) ++ getTextBlocksFrom (n + 1) rest

/-- `_get_text_blocks`: all logical text blocks of the document in page order
(pages are numbered from 1). -/
def getTextBlocks (pages : List (List RawBlock)) : List Block :=
  getTextBlocksFrom 1 pages

/-! ### Pass 2: `_find_body_style` -/

/-- A block counts towards body-style inference when it has more than 2 lines
or more than 20 words. -/
def substantial (b : Block) : Bool :=
  b.numLines > 2 || b.numWords > 20

/-- `style_word_counts`: word counts per style over substantial blocks, in
first-encounter order. -/
def styleWordCounts (blocks : List Block) : List (Style × Nat) :=
  blocks.foldl
    (fun acc b => if substantial b then bumpCount acc b.style b.numWords else acc) []

/-- `Counter(b['style'] for b in blocks)`. -/
def styleFreq (blocks : List Block) : List (Style × Nat) :=
  blocks.foldl (fun acc b => bumpCount acc b.style 1) []

/-- `_find_body_style`: the style with the largest summed word count over
substantial blocks; if no block is substantial, the most frequent style by
block count; `none` when there are no blocks at all. -/
def find_body_style (blocks : List Block) : Option Style :=
  if styleWordCounts blocks = [] then maxByFirst (styleFreq blocks)
  else maxByFirst (styleWordCounts blocks)

/-- Total word count of style `s` over the substantial blocks (the value the
`style_word_counts` table accumulates for `s`). -/
def substWords (blocks : List Block) (s : Style) : Nat :=
  ((blocks.filter (fun b => substantial b && decide (b.style = s))).map
    (fun b => b.numWords)).sum

/-- Number of blocks with style `s` (the `Counter` value of the fallback). -/
def styleCount (blocks : List Block) (s : Style) : Nat :=
  (blocks.filter (fun b => decide (b.style = s))).length

/-! ### Heading classification (`get_outline`, heuristic path) -/

/-- `style['0'] > body['0'] or (equal size and bold while body is not)`. -/
def prominent (st body : Style) : Bool :=
  st.size > body.size || (st.size = body.size && st.bold && !body.bold)

/-- The candidate filter of the heuristic path: a block is kept as a heading
candidate when none of the four rejection rules fires (short enough, more
prominent than the body style, no leader dots / sentence-like ending, no
list-item marker). -/
def keepBlock (body : Style) (b : Block) : Bool :=
  if b.numWords > 30 || b.numLines > 3 then false
  else if ¬ prominent b.style body then false
  else
    let t := stripChars b.text.toList
    if fourDots t || endsBad t then false
    else if listItemStart t then false
    else true

/-- The distinct candidate font sizes sorted descending
(`sorted(size_groups.keys(), reverse=True)`). -/
def candSizes (hblocks : List Block) : List ℤ :=
  stableSortBy (fun a b => b ≤ a) ((hblocks.map (fun b => b.style.size)).dedup)

/-- Index of the first occurrence of `x`. -/
def idxOfZ (x : ℤ) : List ℤ → Option Nat
  | [] => none
  | y :: ys => if y = x then some 0 else (idxOfZ x ys).map (· + 1)

/-- The `style_to_level` dictionary as a partial map: the style's size rank
among the distinct candidate sizes, provided it is among the top four
(`level_map = ['H1', 'H2', 'H3', 'H4']`). -/
def style_to_level (hblocks : List Block) (st : Style) : Option Nat :=
  match idxOfZ st.size (candSizes hblocks) with
  | some i => if i < 4 then some (i + 1) else none
  | none => none

/-- The body of the final assembly loop for one heading block: `none` when the
block's style has no level or when the title de-duplication drops it,
otherwise the emitted entry with the numeric-prefix override applied. -/
def mkEntry (title : String) (stl : Style → Option Nat) (b : Block) : Option HeadingEntry :=
  match stl b.style with
  | none => none
  | some lvl =>
    let t := normText b.text
    let lvl2 :=
      match numDots t.toList with
      | some d => d + 1
      | none => lvl
    if lvl2 = 1 ∧ b.pageNum = 1 ∧ t = title then none
    else some ⟨t, lvl2, b.pageNum, some b.bbox⟩

/-- Sort key access `x['bbox'][1]`; heuristic entries always carry a box
(`0` is a dummy for the never-taken `none` case). -/
def yTop (e : HeadingEntry) : ℚ :=
  match e.bbox with
  | some bb => bb.y0
  | none => 0

/-- `sorted(final_outline, key=lambda x: (x['page_num'], x['bbox'][1]))`. -/
def sortOutline (l : List HeadingEntry) : List HeadingEntry :=
  stableSortBy
    (fun a b => a.pageNum < b.pageNum || (a.pageNum = b.pageNum && yTop a ≤ yTop b)) l

/-- The final outline assembled from the surviving heading blocks. -/
def outlineFromBlocks (title : String) (hblocks : List Block) : List HeadingEntry :=
  sortOutline (hblocks.filterMap (mkEntry title (style_to_level hblocks)))

/-- The heuristic pipeline of `get_outline` (everything after the native-
outline fast path): empty outline when there are no blocks, no body style or
no candidates. -/
def heuristicOutline (title : String) (pages : List (List RawBlock)) :
    String × List HeadingEntry :=
  if getTextBlocks pages = [] then (title, [])
  else
    match find_body_style (getTextBlocks pages) with
    | none => (title, [])
    | some body =>
      if (getTextBlocks pages).filter (keepBlock body) = [] then (title, [])
      else (title, outlineFromBlocks title ((getTextBlocks pages).filter (keepBlock body)))

/-- The native-outline fast path list: toc entries with level between 1 and 4,
stripped text, no bounding box, then entries without an alphabetic character
discarded. -/
def nativeOutline (toc : List TocEntry) : List HeadingEntry :=
  ((toc.filter (fun e => decide (1 ≤ e.level) && decide (e.level ≤ 4))).map
    (fun e => HeadingEntry.mk (stripChars e.text.toList).asString e.level.toNat e.page none)).filter
    (fun h => hasAlpha h.text.toList)

/-- `get_outline`: prefer the embedded native outline when it is present and
survives filtering, otherwise run the heuristic pipeline.  The resolved title
is passed in (it is computed by `_extract_title` from other inputs). -/
def getOutline (title : String) (toc : List TocEntry) (pages : List (List RawBlock)) :
    String × List HeadingEntry :=
  if toc = [] then heuristicOutline title pages
  else if nativeOutline toc = [] then heuristicOutline title pages
  else (title, nativeOutline toc)

/-! ### `_extract_title` -/

/-- The extension list of `re.search(r'\.(pdf|docx?|pptx?|xlsx?|cdr)$', title, re.I)`. -/
def extList : List String :=
  [".pdf", ".doc", ".docx", ".ppt", ".pptx", ".xls", ".xlsx", ".cdr"]

/-- Case-insensitive trailing file-extension test (the regex above). -/
def extSuffix (t : String) : Bool :=
  extList.any (fun e => endsL e.toList (t.toList.map Char.toLower))

/-- The metadata acceptance test of `_extract_title`: the stripped metadata
title is returned only when it is longer than 4 characters, has no trailing
file extension and does not contain `"Microsoft Word"`. -/
def accept_meta (meta : Option String) : Option String :=
  match meta with
  | none => none
  | some raw =>
    let t := (stripChars raw.toList).asString
    if t.length = 0 then none
    else if t.length > 4 ∧ ¬ extSuffix t ∧ ¬ hasSub ("Microsoft Word".toList) t.toList
    then some t
    else none

/-- `line_text`: stripped span texts, empties dropped, joined with spaces. -/
def lineTextChars (ln : List Span) : List Char :=
  stripChars (joinSpace ((ln.map (fun s => stripChars s.text.toList)).filter
    (fun w => w ≠ [])))

/-- Rounded average span size of a line (`round(sum(sizes) / len(spans))`);
the mean `s / n` is the fraction `s.num / (s.den * n)`, rounded in integer
arithmetic. -/
def avgSize (ln : List Span) : ℤ :=
  pyRoundFrac ((ln.map (fun s : Span => s.size)).sum).num
    ((((ln.map (fun s : Span => s.size)).sum).den : ℤ) * (ln.length : ℤ))

/-- Append `t` to the bucket of key `k`, keeping first-insertion order
(`defaultdict(list)`). -/
def addLine : List (ℤ × List (List Char)) → ℤ → List Char → List (ℤ × List (List Char))
  | [], k, t => [(k, [t])]
  | (k1, ts) :: rest, k, t =>
    if k1 = k then (k1, ts ++ [t]) :: rest else (k1, ts) :: addLine rest k t

/-- Numeric maximum of the keys (`max(font_sizes.keys())`). -/
def maxKeyZ : List (ℤ × List (List Char)) → Option (ℤ × List (List Char))
  | [] => none
  | p :: rest =>
    match maxKeyZ rest with
    | none => some p
    | some q => if p.1 ≥ q.1 then some p else some q

/-- The qualifying `(avg_size, line_text)` pairs of the title fallback: lines
of text-type blocks in the clipped top region whose text is nonempty, has an
alphabetic character and fewer than 20 words. -/
def titleLines (blocksTop : List RawBlock) : List (ℤ × List Char) :=
  (((blocksTop.filter (fun rb => rb.btype = 0)).map (fun rb => rb.lines)).flatten).filterMap
    (fun ln =>
      let t := lineTextChars ln
      if t ≠ [] ∧ hasAlpha t ∧ (pySplit t).length < 20 ∧ ln ≠ [] then
        some (avgSize ln, t)
      else none)

/-- The largest-first-page-text fallback of `_extract_title`: group qualifying
lines by rounded average size and join the lines of the single largest size. -/
def titleFallback (blocksTop : List RawBlock) : String :=
  let grouped := (titleLines blocksTop).foldl (fun acc p => addLine acc p.1 p.2) []
  match maxKeyZ grouped with
  | none => ("")
  | some p => ((joinSpace p.2).asString)

/-- `_extract_title`: the accepted metadata title, else the largest-text
fallback over the top 40% of page one (`blocksTop` is that clipped decoder
output; an empty document yields no lines and hence the empty string). -/
def extract_title (meta : Option String) (blocksTop : List RawBlock) : String :=
  match accept_meta meta with
  | some t => t
  | none => titleFallback blocksTop

/-! ### `DocumentSectionizer.get_sections` -/

/-- The clip span of one section: 0-based start/end pages and y-coordinates. -/
structure SpanB where
  startPage : Nat
  startY : ℚ
  endPage : Nat
  endY : ℚ
deriving DecidableEq, Repr

/-- `self.doc[len(self.doc) - 1].rect.height` (0 for the impossible empty
document, on which the source would raise). -/
def lastHeight (pages : List ℚ) : ℚ :=
  pages.getD (pages.length - 1) 0

/-- The span computed for a heading with box `bb`: start at the heading's
bottom on its page; end at the next outline entry's top when that entry exists
and has a box, else at the bottom of the last page.  `pages` is the list of
page heights. -/
def spanFor (pages : List ℚ) (h : HeadingEntry) (bb : BBox)
    (next : Option HeadingEntry) : SpanB :=
  let sp := h.pageNum - 1
  let sy := bb.y1
  match next with
  | some nh =>
    match nh.bbox with
    | some nb => ⟨sp, sy, nh.pageNum - 1, nb.y0⟩
    | none => ⟨sp, sy, pages.length - 1, lastHeight pages⟩
  | none => ⟨sp, sy, pages.length - 1, lastHeight pages⟩

/-- The clip spans of all sections: the loop of `get_sections` restricted to
its boundary computation; entries without a bounding box are skipped
(`continue`), and `outline[i+1]` is the head of the remaining list. -/
def sectionSpans (pages : List ℚ) : List HeadingEntry → List SpanB
  | [] => []
  | h :: rest =>
    match h.bbox with
    | none => sectionSpans pages rest
    | some bb => spanFor pages h bb rest.head? :: sectionSpans pages rest

/-- The page-by-page clipped text accumulation of one section;
`extract p y0 y1` is the decoder's `page.get_text(clip=...)` for page `p`
clipped to `[y0, y1]`. -/
def sectionContent (extract : Nat → ℚ → ℚ → String) (pages : List ℚ)
    (sp : SpanB) : String :=
  (List.range' sp.startPage (sp.endPage + 1 - sp.startPage)).foldl
    (fun acc p =>
      let y0 := if p = sp.startPage then sp.startY else 0
      let y1 := if p = sp.endPage then sp.endY else pages.getD p 0
      if y0 < y1 then acc ++ extract p y0 y1 else acc) ("")

/-- `re.sub(r'(?<!\n)\n(?!\n)', ' ', content)`: a lone newline becomes a
space; `prev` is the original character before the scan position. -/
def sub1 : Option Char → List Char → List Char
  | _, [] => []
  | prev, c :: rest =>
    if c = '\n' ∧ prev ≠ some '\n' ∧ rest.head? ≠ some '\n' then
      ' ' :: sub1 (some '\n') rest
    else c :: sub1 (some c) rest

/-- `re.sub(r' \n', '\n', ...)`: fold a space before a newline. -/
def sub2 : List Char → List Char
  | ' ' :: '\n' :: rest => '\n' :: sub2 rest
  | c :: rest => c :: sub2 rest
  | [] => []

/-- `re.sub(r'\n{2,}', '\n', ...)`: collapse newline runs. -/
def sub3 : List Char → List Char
  | '\n' :: '\n' :: rest => sub3 ('\n' :: rest)
  | c :: rest => c :: sub3 rest
  | [] => []

/-- A section record of `get_sections`. -/
structure PySection where
  title : String
  pageNumber : Nat
  content : String
deriving DecidableEq, Repr

/-- One appended section: clip span, text accumulation, whitespace cleanup and
the heading title prefixed on its own line. -/
def mkPySection (extract : Nat → ℚ → ℚ → String) (pages : List ℚ)
    (h : HeadingEntry) (bb : BBox) (next : Option HeadingEntry) : PySection :=
  let sp := spanFor pages h bb next
  let raw := sectionContent extract pages sp
  let cleaned := (stripChars (sub3 (sub2 (sub1 none raw.toList)))).asString
  ⟨h.text, h.pageNum, h.text ++ "\n" ++ cleaned⟩

/-- `get_sections`: one section per outline entry that carries a bounding box;
entries without one are skipped. -/
def get_sections (extract : Nat → ℚ → ℚ → String) (pages : List ℚ) :
    List HeadingEntry → List PySection
  | [] => []
  | h :: rest =>
    match h.bbox with
    | none => get_sections extract pages rest
    | some bb => mkPySection extract pages h bb rest.head? :: get_sections extract pages rest

/-! ### `SemanticRanker.rank_sections` -/

/-- A section record as seen by the ranker. -/
structure Sec where
  document : String
  title : String
  pageNumber : Nat
  content : String
deriving DecidableEq, Repr

/-- A section with its assigned `relevance_score`. -/
structure RankedSec where
  sec : Sec
  score : ℚ
deriving DecidableEq, Repr

/-- `query = f"User Persona: ..."` built from persona and task. -/
def buildQuery (persona task : String) : String :=
  ("User Persona: ") ++ persona ++ (". Task: ") ++ task

/-- The scoring pass: every section receives the similarity between the query
embedding and its content embedding; `sim` abstracts the embedding model plus
cosine similarity (deterministic by the embedding contract). -/
def scoredSections (sim : String → String → ℚ) (persona task : String)
    (secs : List Sec) : List RankedSec :=
  secs.map (fun s => ⟨s, sim (buildQuery persona task) s.content⟩)

/-- `rank_sections`: score all sections, then
`sorted(..., key=lambda x: x['relevance_score'], reverse=True)` — a stable
sort descending by score. -/
def rank_sections (sim : String → String → ℚ) (persona task : String)
    (secs : List Sec) : List RankedSec :=
  if secs = [] then []
  else stableSortBy (fun a b => decide (b.score ≤ a.score))
    (scoredSections sim persona task secs)

/-! ### Concrete test documents used by witnesses and counterexamples -/

/-- A candidate block set with five distinct sizes (bold and non-bold at 18). -/
def c1Blocks : List Block :=
  [⟨"Alpha", ⟨20, true⟩, ⟨0, 10, 500, 20⟩, 1, 1, 1⟩,
   ⟨"Beta", ⟨18, false⟩, ⟨0, 30, 500, 40⟩, 1, 1, 1⟩,
   ⟨"Gamma", ⟨18, true⟩, ⟨0, 50, 500, 60⟩, 1, 1, 1⟩,
   ⟨"Delta", ⟨16, false⟩, ⟨0, 70, 500, 80⟩, 1, 1, 1⟩,
   ⟨"Epsilon", ⟨15, false⟩, ⟨0, 90, 500, 95⟩, 1, 1, 1⟩,
   ⟨"Zeta", ⟨14, false⟩, ⟨0, 96, 500, 99⟩, 2, 1, 1⟩]

/-- A heading block whose raw text normalises to `"3.2.1 Setup"`. -/
def c2Block : Block :=
  ⟨"3.2.1   Setup", ⟨14, true⟩, ⟨0, 10, 500, 20⟩, 2, 1, 2⟩

/-- A one-page document: a deeply numbered heading (size 20 bold) above a
21-word body paragraph (size 12). -/
def c3pages : List (List RawBlock) :=
  [[⟨0, ⟨0, 100, 500, 120⟩, [[⟨"1.1.1.1.1 Overview", 20, "Times-Bold"⟩]]⟩,
    ⟨0, ⟨0, 300, 500, 400⟩,
     [[⟨"t t t t t t t t t t t t t t t t t t t t t", 12, "Regular"⟩]]⟩]]

/-- A block whose text starts with a genuine bullet glyph. -/
def c4Block : Block :=
  ⟨"• Item", ⟨14, true⟩, ⟨0, 10, 500, 20⟩, 1, 1, 2⟩

/-- Two blocks, the first substantial (3 lines), for body-style inference. -/
def c5Blocks : List Block :=
  [⟨"body text", ⟨12, false⟩, ⟨0, 100, 500, 200⟩, 1, 3, 25⟩,
   ⟨"Head", ⟨20, true⟩, ⟨0, 10, 500, 20⟩, 1, 1, 1⟩]

/-- Two boxed headings on one page of height 800. -/
def c6Outline : List HeadingEntry :=
  [⟨"A", 1, 1, some ⟨0, 10, 500, 20⟩⟩,
   ⟨"B", 2, 1, some ⟨0, 100, 500, 120⟩⟩]

/-- A clipped first-page region whose only line is a filename-like string. -/
def c7TopBlocks : List RawBlock :=
  [⟨0, ⟨0, 10, 500, 30⟩, [[⟨"thesis.pdf", 20, "Regular"⟩]]⟩]

/-- A native outline whose only entry has no alphabetic character. -/
def c8Toc : List TocEntry :=
  [⟨1, "123", 1⟩]

/-- A one-page document with one heuristic heading over a body paragraph. -/
def c8Pages : List (List RawBlock) :=
  [[⟨0, ⟨0, 100, 500, 120⟩, [[⟨"Heading One", 16, "Arial-Bold"⟩]]⟩,
    ⟨0, ⟨0, 300, 500, 400⟩,
     [[⟨"w w w w w w w w w w w w w w w w w w w w w", 11, "Regular"⟩]]⟩]]

/-- A bbox-less heading entry as produced by the native-outline path. -/
def c9Outline : List HeadingEntry :=
  [⟨"Intro", 1, 1, none⟩]

/-! ### Lemmas: the stable sort -/

theorem insBefore_perm {α : Type} (le : α → α → Bool) (x : α) (l : List α) :
    List.Perm (insBefore le x l) (x :: l) := by
  induction l with
  | nil => exact List.Perm.refl _
  | cons y ys ih =>
    simp only [insBefore]
    split
    · exact List.Perm.refl _
    · exact (ih.cons y).trans (List.Perm.swap x y ys)

theorem stableSortBy_perm {α : Type} (le : α → α → Bool) (l : List α) :
    List.Perm (stableSortBy le l) l := by
  induction l with
  | nil => exact List.Perm.refl _
  | cons x xs ih => exact (insBefore_perm le x (stableSortBy le xs)).trans (ih.cons x)

theorem mem_stableSortBy {α : Type} (le : α → α → Bool) (l : List α) (a : α) :
    a ∈ stableSortBy le l ↔ a ∈ l :=
  (stableSortBy_perm le l).mem_iff

theorem pairwise_insBefore {α : Type} (le : α → α → Bool) (x : α) (l : List α)
    (htrans : ∀ a b c, le a b = true → le b c = true → le a c = true)
    (htot : ∀ a b, le a b = true ∨ le b a = true)
    (hl : l.Pairwise (fun a b => le a b = true)) :
    (insBefore le x l).Pairwise (fun a b => le a b = true) := by
  induction l with
  | nil => simp [insBefore]
  | cons y ys ih =>
    rw [List.pairwise_cons] at hl
    obtain ⟨hy, hys⟩ := hl
    simp only [insBefore]
    split
    case isTrue h =>
      refine List.Pairwise.cons ?_ (List.Pairwise.cons hy hys)
      intro b hb
      rcases List.mem_cons.mp hb with rfl | hb
      · exact h
      · exact htrans x y b h (hy b hb)
    case isFalse h =>
      refine List.Pairwise.cons ?_ (ih hys)
      intro b hb
      rcases List.mem_cons.mp ((insBefore_perm le x ys).mem_iff.mp hb) with rfl | hb2
      · rcases htot y b with h2 | h2
        · exact h2
        · exact absurd h2 h
      · exact hy b hb2

theorem stableSortBy_pairwise {α : Type} (le : α → α → Bool)
    (htrans : ∀ a b c, le a b = true → le b c = true → le a c = true)
    (htot : ∀ a b, le a b = true ∨ le b a = true) (l : List α) :
    (stableSortBy le l).Pairwise (fun a b => le a b = true) := by
  induction l with
  | nil => simp [stableSortBy]
  | cons x xs ih => exact pairwise_insBefore le x _ htrans htot ih

theorem filter_insBefore_pos {α : Type} (le : α → α → Bool) (p : α → Bool) (x : α)
    (l : List α) (hp : ∀ a b, p a = true → p b = true → le a b = true)
    (hx : p x = true) :
    (insBefore le x l).filter p = x :: l.filter p := by
  induction l with
  | nil => simp [insBefore, hx]
  | cons y ys ih =>
    simp only [insBefore]
    split
    case isTrue h => simp [List.filter_cons, hx]
    case isFalse h =>
      have hy : p y = false := by
        cases hpy : p y
        · rfl
        · exact absurd (hp x y hx hpy) h
      simp [List.filter_cons, hy, ih]

theorem filter_insBefore_neg {α : Type} (le : α → α → Bool) (p : α → Bool) (x : α)
    (l : List α) (hx : p x = false) :
    (insBefore le x l).filter p = l.filter p := by
  induction l with
  | nil => simp [insBefore, hx]
  | cons y ys ih =>
    simp only [insBefore]
    split
    · simp [List.filter_cons, hx]
    · simp [List.filter_cons, ih]

theorem stableSortBy_filter {α : Type} (le : α → α → Bool) (p : α → Bool)
    (hp : ∀ a b, p a = true → p b = true → le a b = true) (l : List α) :
    (stableSortBy le l).filter p = l.filter p := by
  induction l with
  | nil => rfl
  | cons x xs ih =>
    show ((insBefore le x (stableSortBy le xs)).filter p) = _
    cases hx : p x
    · rw [filter_insBefore_neg le p x _ hx, ih]
      simp [List.filter_cons, hx]
    · rw [filter_insBefore_pos le p x _ hp hx, ih]
      simp [List.filter_cons, hx]

/-! ### Lemmas: counting tables -/

theorem cnt_bumpCount {α : Type} [DecidableEq α] (l : List (α × Nat)) (k : α)
    (v : Nat) (t : α) :
    cnt (bumpCount l k v) t = cnt l t + (if k = t then v else 0) := by
  induction l with
  | nil =>
    by_cases ht : k = t <;> simp [bumpCount, cnt, ht]
  | cons p rest ih =>
    obtain ⟨k1, v1⟩ := p
    simp only [bumpCount]
    split
    case isTrue h =>
      subst h
      by_cases ht : k1 = t <;> simp [cnt, ht]
    case isFalse h =>
      by_cases ht : k1 = t
      · have hkt : (if k = t then v else 0) = 0 := by
          rw [if_neg]
          intro hk
          exact h (ht.trans hk.symm)
        simp [cnt, ht, hkt]
      · simp [cnt, ht, ih]

theorem fst_bumpCount {α : Type} [DecidableEq α] (l : List (α × Nat)) (k : α)
    (v : Nat) :
    (bumpCount l k v).map Prod.fst =
      if k ∈ l.map Prod.fst then l.map Prod.fst else l.map Prod.fst ++ [k] := by
  induction l with
  | nil => simp [bumpCount]
  | cons p rest ih =>
    obtain ⟨k1, v1⟩ := p
    simp only [bumpCount]
    split
    case isTrue h =>
      subst h
      simp
    case isFalse h =>
      have hne : ¬ (k = k1) := fun hk => h hk.symm
      by_cases hmem : k ∈ rest.map Prod.fst <;>
        simp [List.mem_cons, hne, hmem, ih]

theorem keysNodup_bumpCount {α : Type} [DecidableEq α] (l : List (α × Nat))
    (k : α) (v : Nat) (h : (l.map Prod.fst).Nodup) :
    ((bumpCount l k v).map Prod.fst).Nodup := by
  rw [fst_bumpCount]
  split
  · exact h
  case isFalse hmem => simp [List.nodup_append, h, hmem]

theorem mem_fst_bumpCount {α : Type} [DecidableEq α] (l : List (α × Nat))
    (k : α) (v : Nat) (t : α) (h : t ∈ (bumpCount l k v).map Prod.fst) :
    t ∈ l.map Prod.fst ∨ t = k := by
  rw [fst_bumpCount] at h
  split at h
  · exact Or.inl h
  · rcases List.mem_append.mp h with h2 | h2
    · exact Or.inl h2
    · simp at h2
      exact Or.inr h2

theorem cnt_eq_of_mem {α : Type} [DecidableEq α] (l : List (α × Nat)) (k : α)
    (v : Nat) (hnd : (l.map Prod.fst).Nodup) (hm : (k, v) ∈ l) : cnt l k = v := by
  induction l with
  | nil => simp at hm
  | cons p rest ih =>
    obtain ⟨k1, v1⟩ := p
    rcases List.mem_cons.mp hm with heq | hm2
    · obtain ⟨rfl, rfl⟩ := Prod.mk.injEq .. ▸ heq
      simp [cnt]
    · have hk1 : ¬ (k1 = k) := by
        intro hk
        subst hk
        exact (List.nodup_cons.mp hnd).1
          (List.mem_map.mpr ⟨(k1, v), hm2, rfl⟩)
      simp only [cnt, if_neg hk1]
      exact ih (List.nodup_cons.mp hnd).2 hm2

theorem cnt_zero_or_mem {α : Type} [DecidableEq α] (l : List (α × Nat)) (t : α) :
    cnt l t = 0 ∨ (t, cnt l t) ∈ l := by
  induction l with
  | nil => exact Or.inl rfl
  | cons p rest ih =>
    obtain ⟨k1, v1⟩ := p
    by_cases ht : k1 = t
    · subst ht
      exact Or.inr (by simp [cnt])
    · simp only [cnt, if_neg ht]
      rcases ih with h | h
      · exact Or.inl h
      · exact Or.inr (List.mem_cons_of_mem _ h)

theorem maxPair_eq_or_mem {α : Type} (p : α × Nat) (l : List (α × Nat)) :
    maxPair p l = p ∨ maxPair p l ∈ l := by
  induction l generalizing p with
  | nil => exact Or.inl rfl
  | cons q rest ih =>
    simp only [maxPair]
    split
    · rcases ih q with h | h
      · exact Or.inr (by rw [h]; exact List.mem_cons_self q rest)
      · exact Or.inr (List.mem_cons_of_mem _ h)
    · rcases ih p with h | h
      · exact Or.inl h
      · exact Or.inr (List.mem_cons_of_mem _ h)

theorem maxPair_ge {α : Type} (p : α × Nat) (l : List (α × Nat)) :
    p.2 ≤ (maxPair p l).2 ∧ ∀ q ∈ l, q.2 ≤ (maxPair p l).2 := by
  induction l generalizing p with
  | nil => exact ⟨le_refl _, by simp⟩
  | cons q rest ih =>
    simp only [maxPair]
    split
    case isTrue h =>
      obtain ⟨h1, h2⟩ := ih q
      refine ⟨le_of_lt (lt_of_lt_of_le h h1), ?_⟩
      intro r hr
      rcases List.mem_cons.mp hr with rfl | hr
      · exact h1
      · exact h2 r hr
    case isFalse h =>
      obtain ⟨h1, h2⟩ := ih p
      refine ⟨h1, ?_⟩
      intro r hr
      rcases List.mem_cons.mp hr with rfl | hr
      · exact le_trans (Nat.le_of_not_lt h) h1
      · exact h2 r hr

theorem maxByFirst_spec {α : Type} (l : List (α × Nat)) (k : α)
    (h : maxByFirst l = some k) : ∃ v, (k, v) ∈ l ∧ ∀ q ∈ l, q.2 ≤ v := by
  cases l with
  | nil => simp [maxByFirst] at h
  | cons p rest =>
    simp only [maxByFirst, Option.some.injEq] at h
    refine ⟨(maxPair p rest).2, ?_, ?_⟩
    · have hkv : (k, (maxPair p rest).2) = maxPair p rest := by
        rw [← h]
      rcases maxPair_eq_or_mem p rest with h2 | h2
      · rw [hkv, h2]
        exact List.mem_cons_self p rest
      · rw [hkv]
        exact List.mem_cons_of_mem _ h2
    · intro q hq
      rcases List.mem_cons.mp hq with rfl | hq
      · exact (maxPair_ge q rest).1
      · exact (maxPair_ge p rest).2 q hq

/-! ### Lemmas: body-style inference -/

theorem substWords_cons (b : Block) (bs : List Block) (s : Style) :
    substWords (b :: bs) s =
      (if (substantial b && decide (b.style = s)) = true then b.numWords else 0) +
        substWords bs s := by
  simp only [substWords, List.filter_cons]
  split
  · simp
  · simp

theorem styleCount_cons (b : Block) (bs : List Block) (s : Style) :
    styleCount (b :: bs) s =
      (if b.style = s then 1 else 0) + styleCount bs s := by
  simp only [styleCount, List.filter_cons]
  by_cases h : b.style = s <;> simp [h, Nat.add_comm]

theorem cnt_swcFold (bs : List Block) (acc : List (Style × Nat)) (t : Style) :
    cnt (bs.foldl
      (fun acc b => if substantial b then bumpCount acc b.style b.numWords else acc) acc) t
      = cnt acc t + substWords bs t := by
  induction bs generalizing acc with
  | nil => simp [substWords]
  | cons b rest ih =>
    rw [List.foldl_cons, ih, substWords_cons]
    cases hsb : substantial b
    · simp [hsb]
    · rw [if_pos rfl, cnt_bumpCount]
      by_cases ht : b.style = t
      · simp [ht, hsb]
        omega
      · simp [ht, hsb]

theorem cnt_styleWordCounts (blocks : List Block) (t : Style) :
    cnt (styleWordCounts blocks) t = substWords blocks t := by
  have h := cnt_swcFold blocks [] t
  simpa [styleWordCounts, cnt] using h

theorem cnt_sfFold (bs : List Block) (acc : List (Style × Nat)) (t : Style) :
    cnt (bs.foldl (fun acc b => bumpCount acc b.style 1) acc) t
      = cnt acc t + styleCount bs t := by
  induction bs generalizing acc with
  | nil => simp [styleCount]
  | cons b rest ih =>
    rw [List.foldl_cons, ih, styleCount_cons, cnt_bumpCount]
    by_cases ht : b.style = t
    · simp [ht]
      omega
    · simp [ht]

theorem cnt_styleFreq (blocks : List Block) (t : Style) :
    cnt (styleFreq blocks) t = styleCount blocks t := by
  have h := cnt_sfFold blocks [] t
  simpa [styleFreq, cnt] using h

theorem keysNodup_swcFold (bs : List Block) (acc : List (Style × Nat))
    (h : (acc.map Prod.fst).Nodup) :
    ((bs.foldl
      (fun acc b => if substantial b then bumpCount acc b.style b.numWords else acc) acc).map
        Prod.fst).Nodup := by
  induction bs generalizing acc with
  | nil => exact h
  | cons b rest ih =>
    rw [List.foldl_cons]
    cases hsb : substantial b
    · simp only [hsb, Bool.false_eq_true, if_false]
      exact ih acc h
    · simp only [hsb, if_true]
      exact ih _ (keysNodup_bumpCount acc b.style b.numWords h)

theorem keysNodup_styleWordCounts (blocks : List Block) :
    ((styleWordCounts blocks).map Prod.fst).Nodup :=
  keysNodup_swcFold blocks [] (by simp)

theorem keysNodup_sfFold (bs : List Block) (acc : List (Style × Nat))
    (h : (acc.map Prod.fst).Nodup) :
    ((bs.foldl (fun acc b => bumpCount acc b.style 1) acc).map Prod.fst).Nodup := by
  induction bs generalizing acc with
  | nil => exact h
  | cons b rest ih =>
    rw [List.foldl_cons]
    exact ih _ (keysNodup_bumpCount acc b.style 1 h)

theorem keysNodup_styleFreq (blocks : List Block) :
    ((styleFreq blocks).map Prod.fst).Nodup :=
  keysNodup_sfFold blocks [] (by simp)

theorem mem_fst_swcFold (bs : List Block) (acc : List (Style × Nat)) (t : Style)
    (h : t ∈ (bs.foldl
      (fun acc b => if substantial b then bumpCount acc b.style b.numWords else acc) acc).map
        Prod.fst) :
    t ∈ acc.map Prod.fst ∨ ∃ b ∈ bs, substantial b = true ∧ b.style = t := by
  induction bs generalizing acc with
  | nil => exact Or.inl h
  | cons b rest ih =>
    rw [List.foldl_cons] at h
    cases hsb : substantial b
    · rw [hsb] at h
      simp only [Bool.false_eq_true, if_false] at h
      rcases ih _ h with h2 | ⟨b2, hb2, h3⟩
      · exact Or.inl h2
      · exact Or.inr ⟨b2, List.mem_cons_of_mem b hb2, h3⟩
    · rw [hsb] at h
      simp only [if_true] at h
      rcases ih _ h with h2 | ⟨b2, hb2, h3⟩
      · rcases mem_fst_bumpCount acc b.style b.numWords t h2 with h4 | h4
        · exact Or.inl h4
        · exact Or.inr ⟨b, List.mem_cons_self b rest, hsb, h4.symm⟩
      · exact Or.inr ⟨b2, List.mem_cons_of_mem b hb2, h3⟩

theorem mem_fst_styleWordCounts (blocks : List Block) (t : Style)
    (h : t ∈ (styleWordCounts blocks).map Prod.fst) :
    ∃ b ∈ blocks, substantial b = true ∧ b.style = t := by
  rcases mem_fst_swcFold blocks [] t h with h2 | h2
  · simp at h2
  · exact h2

theorem mem_fst_sfFold (bs : List Block) (acc : List (Style × Nat)) (t : Style)
    (h : t ∈ (bs.foldl (fun acc b => bumpCount acc b.style 1) acc).map Prod.fst) :
    t ∈ acc.map Prod.fst ∨ ∃ b ∈ bs, b.style = t := by
  induction bs generalizing acc with
  | nil => exact Or.inl h
  | cons b rest ih =>
    rw [List.foldl_cons] at h
    rcases ih _ h with h2 | ⟨b2, hb2, h3⟩
    · rcases mem_fst_bumpCount acc b.style 1 t h2 with h4 | h4
      · exact Or.inl h4
      · exact Or.inr ⟨b, List.mem_cons_self b rest, h4.symm⟩
    · exact Or.inr ⟨b2, List.mem_cons_of_mem b hb2, h3⟩

theorem mem_fst_styleFreq (blocks : List Block) (t : Style)
    (h : t ∈ (styleFreq blocks).map Prod.fst) : ∃ b ∈ blocks, b.style = t := by
  rcases mem_fst_sfFold blocks [] t h with h2 | h2
  · simp at h2
  · exact h2

theorem bumpCount_ne_nil {α : Type} [DecidableEq α] (l : List (α × Nat)) (k : α)
    (v : Nat) : bumpCount l k v ≠ [] := by
  cases l with
  | nil => simp [bumpCount]
  | cons p rest =>
    obtain ⟨k1, v1⟩ := p
    simp only [bumpCount]
    split <;> simp

theorem swcFold_ne_nil (bs : List Block) (acc : List (Style × Nat)) (h : acc ≠ []) :
    bs.foldl
      (fun acc b => if substantial b then bumpCount acc b.style b.numWords else acc) acc
      ≠ [] := by
  induction bs generalizing acc with
  | nil => exact h
  | cons b rest ih =>
    rw [List.foldl_cons]
    cases hsb : substantial b
    · simp only [hsb, Bool.false_eq_true, if_false]
      exact ih acc h
    · simp only [hsb, if_true]
      exact ih _ (bumpCount_ne_nil acc b.style b.numWords)

theorem sfFold_ne_nil (bs : List Block) (acc : List (Style × Nat)) (h : acc ≠ []) :
    bs.foldl (fun acc b => bumpCount acc b.style 1) acc ≠ [] := by
  induction bs generalizing acc with
  | nil => exact h
  | cons b rest ih =>
    rw [List.foldl_cons]
    exact ih _ (bumpCount_ne_nil acc b.style 1)

theorem styleWordCounts_ne_nil (blocks : List Block) (b : Block) (hb : b ∈ blocks)
    (hsb : substantial b = true) : styleWordCounts blocks ≠ [] := by
  obtain ⟨l1, l2, rfl⟩ := List.append_of_mem hb
  rw [styleWordCounts, List.foldl_append, List.foldl_cons]
  rw [hsb]
  simp only [if_true]
  exact swcFold_ne_nil l2 _ (bumpCount_ne_nil _ b.style b.numWords)

theorem styleFreq_ne_nil (blocks : List Block) (h : blocks ≠ []) :
    styleFreq blocks ≠ [] := by
  cases blocks with
  | nil => exact absurd rfl h
  | cons b rest =>
    rw [styleFreq, List.foldl_cons]
    exact sfFold_ne_nil rest _ (bumpCount_ne_nil [] b.style 1)

theorem styleWordCounts_nil (blocks : List Block)
    (h : ∀ b ∈ blocks, substantial b = false) : styleWordCounts blocks = [] := by
  induction blocks with
  | nil => rfl
  | cons b rest ih =>
    have hb := h b (List.mem_cons_self b rest)
    have hrest : ∀ b2 ∈ rest, substantial b2 = false :=
      fun b2 hb2 => h b2 (List.mem_cons_of_mem b hb2)
    rw [styleWordCounts, List.foldl_cons, hb]
    simp only [Bool.false_eq_true, if_false]
    exact ih hrest

/-! ### Lemmas: level assignment -/

theorem zge_trans : ∀ a b c : ℤ, (decide (b ≤ a)) = true → (decide (c ≤ b)) = true →
    (decide (c ≤ a)) = true := by
  intro a b c h1 h2
  simp only [decide_eq_true_eq] at h1 h2 ⊢
  omega

theorem zge_tot : ∀ a b : ℤ, (decide (b ≤ a)) = true ∨ (decide (a ≤ b)) = true := by
  intro a b
  rcases le_total b a with h | h
  · exact Or.inl (by simpa using h)
  · exact Or.inr (by simpa using h)

theorem candSizes_sorted (hb : List Block) :
    (candSizes hb).Pairwise (fun a b : ℤ => b ≤ a) := by
  have h2 : candSizes hb =
      stableSortBy (fun a b : ℤ => decide (b ≤ a))
        ((hb.map (fun b => b.style.size)).dedup) := rfl
  rw [h2]
  exact (stableSortBy_pairwise _ zge_trans zge_tot _).imp (fun hab => by simpa using hab)

theorem candSizes_nodup (hb : List Block) : (candSizes hb).Nodup := by
  have h2 : candSizes hb =
      stableSortBy (fun a b : ℤ => decide (b ≤ a))
        ((hb.map (fun b => b.style.size)).dedup) := rfl
  rw [h2]
  exact ((stableSortBy_perm _ _).nodup_iff).mpr (List.nodup_dedup _)

theorem candSizes_strict (hb : List Block) :
    (candSizes hb).Pairwise (fun a b : ℤ => b < a) :=
  ((candSizes_sorted hb).and (candSizes_nodup hb)).imp
    (fun h => lt_of_le_of_ne h.1 h.2.symm)

theorem mem_candSizes (hb : List Block) (x : ℤ) :
    x ∈ candSizes hb ↔ ∃ b ∈ hb, b.style.size = x := by
  have h2 : candSizes hb =
      stableSortBy (fun a b : ℤ => decide (b ≤ a))
        ((hb.map (fun b => b.style.size)).dedup) := rfl
  rw [h2, mem_stableSortBy, List.mem_dedup, List.mem_map]

theorem idxOfZ_get (x : ℤ) (l : List ℤ) (i : Nat) (h : idxOfZ x l = some i) :
    l[i]? = some x := by
  induction l generalizing i with
  | nil => simp [idxOfZ] at h
  | cons y ys ih =>
    simp only [idxOfZ] at h
    split at h
    case isTrue hy =>
      cases h
      simpa using hy
    case isFalse hy =>
      rcases Option.map_eq_some'.mp h with ⟨j, hj, hij⟩
      subst hij
      simpa using ih j hj

theorem idxOfZ_mem (x : ℤ) (l : List ℤ) (h : x ∈ l) : ∃ i, idxOfZ x l = some i := by
  induction l with
  | nil => simp at h
  | cons y ys ih =>
    by_cases hy : y = x
    · exact ⟨0, by simp [idxOfZ, hy]⟩
    · rcases List.mem_cons.mp h with h2 | h2
      · exact absurd h2.symm hy
      · obtain ⟨i, hi⟩ := ih h2
        exact ⟨i + 1, by simp [idxOfZ, hy, hi]⟩

theorem idx_lt_of_gt (l : List ℤ) (hstrict : l.Pairwise (fun a b => b < a))
    (i j : Nat) (a b : ℤ) (ha : l[i]? = some a) (hb : l[j]? = some b)
    (hab : b < a) : i < j := by
  by_contra hc
  push_neg at hc
  obtain ⟨hi, hia⟩ := List.getElem?_eq_some.mp ha
  obtain ⟨hj, hjb⟩ := List.getElem?_eq_some.mp hb
  rcases Nat.eq_or_lt_of_le hc with heq | hlt
  · subst heq
    rw [hia] at hjb
    omega
  · have := (List.pairwise_iff_getElem.mp hstrict) j i hj hi hlt
    rw [hia, hjb] at this
    omega

theorem stl_bounds (hb : List Block) (s : Style) (l : Nat)
    (h : style_to_level hb s = some l) : 1 ≤ l ∧ l ≤ 4 := by
  unfold style_to_level at h
  split at h
  case h_1 i hi =>
    split at h
    · cases h
      omega
    · cases h
  case h_2 => cases h

theorem stl_eq_of_size_eq (hb : List Block) (s t : Style) (h : s.size = t.size) :
    style_to_level hb s = style_to_level hb t := by
  unfold style_to_level
  rw [h]

theorem stl_rank_lt (hb : List Block) (s : Style) (i : Nat)
    (hi : idxOfZ s.size (candSizes hb) = some i) (h4 : i < 4) :
    style_to_level hb s = some (i + 1) := by
  unfold style_to_level
  rw [hi]
  simp [h4]

theorem stl_rank_ge (hb : List Block) (s : Style) (i : Nat)
    (hi : idxOfZ s.size (candSizes hb) = some i) (h4 : 4 ≤ i) :
    style_to_level hb s = none := by
  unfold style_to_level
  rw [hi]
  simp [Nat.not_lt.mpr h4]

/-! ### Lemmas: entry assembly and outline membership -/

theorem mkEntry_none_of_none (title : String) (stl : Style → Option Nat) (b : Block)
    (h : stl b.style = none) : mkEntry title stl b = none := by
  unfold mkEntry
  rw [h]

theorem mkEntry_spec (title : String) (stl : Style → Option Nat) (b : Block)
    (e : HeadingEntry) (h : mkEntry title stl b = some e) :
    e.text = normText b.text ∧ e.pageNum = b.pageNum ∧ e.bbox = some b.bbox ∧
      ((∃ d, numDots (normText b.text).toList = some d ∧ e.level = d + 1) ∨
       (numDots (normText b.text).toList = none ∧ stl b.style = some e.level)) := by
  rcases hstl : stl b.style with _ | lvl
  · rw [mkEntry_none_of_none title stl b hstl] at h
    cases h
  · rcases hnd : numDots (normText b.text).toList with _ | d
    · simp only [mkEntry, hstl, hnd] at h
      split at h
      · cases h
      · cases h
        exact ⟨rfl, rfl, rfl, Or.inr ⟨rfl, rfl⟩⟩
    · simp only [mkEntry, hstl, hnd] at h
      split at h
      · cases h
      · cases h
        exact ⟨rfl, rfl, rfl, Or.inl ⟨d, rfl, rfl⟩⟩

theorem mkEntry_override (title : String) (stl : Style → Option Nat) (b : Block)
    (lvl d : Nat) (hstl : stl b.style = some lvl)
    (hnd : numDots (normText b.text).toList = some d) (hd : d + 1 ≠ 1) :
    mkEntry title stl b = some ⟨normText b.text, d + 1, b.pageNum, some b.bbox⟩ := by
  simp only [mkEntry, hstl, hnd]
  rw [if_neg]
  intro hcon
  exact hd hcon.1

theorem mem_outlineFromBlocks (title : String) (hb : List Block) (e : HeadingEntry) :
    e ∈ outlineFromBlocks title hb ↔
      ∃ b ∈ hb, mkEntry title (style_to_level hb) b = some e := by
  unfold outlineFromBlocks sortOutline
  rw [mem_stableSortBy, List.mem_filterMap]

theorem mem_heuristicOutline (title : String) (pages : List (List RawBlock))
    (e : HeadingEntry) (h : e ∈ (heuristicOutline title pages).2) :
    ∃ body, find_body_style (getTextBlocks pages) = some body ∧
      ∃ b ∈ (getTextBlocks pages).filter (keepBlock body),
        mkEntry title
          (style_to_level ((getTextBlocks pages).filter (keepBlock body))) b = some e := by
  unfold heuristicOutline at h
  split at h
  · simp at h
  · split at h
    case h_1 => simp at h
    case h_2 body hbody =>
      split at h
      · simp at h
      · exact ⟨body, hbody, (mem_outlineFromBlocks title _ e).mp h⟩

theorem mem_nativeOutline (toc : List TocEntry) (e : HeadingEntry)
    (h : e ∈ nativeOutline toc) :
    1 ≤ e.level ∧ e.level ≤ 4 ∧ e.bbox = none ∧ hasAlpha e.text.toList = true := by
  unfold nativeOutline at h
  rw [List.mem_filter] at h
  obtain ⟨hm, halpha⟩ := h
  rw [List.mem_map] at hm
  obtain ⟨te, hte, rfl⟩ := hm
  rw [List.mem_filter] at hte
  obtain ⟨_, hcond⟩ := hte
  simp only [Bool.and_eq_true, decide_eq_true_eq] at hcond
  refine ⟨?_, ?_, rfl, halpha⟩
  · dsimp only
    omega
  · dsimp only
    omega

theorem mem_getOutline (title : String) (toc : List TocEntry)
    (pages : List (List RawBlock)) (e : HeadingEntry)
    (h : e ∈ (getOutline title toc pages).2) :
    e ∈ nativeOutline toc ∨ e ∈ (heuristicOutline title pages).2 := by
  unfold getOutline at h
  split at h
  · exact Or.inr h
  · split at h
    · exact Or.inr h
    · exact Or.inl h

/-! ### Lemmas: sectionizer -/

theorem spanFor_start (pages : List ℚ) (h : HeadingEntry) (bb : BBox)
    (next : Option HeadingEntry) :
    (spanFor pages h bb next).startPage = h.pageNum - 1 ∧
      (spanFor pages h bb next).startY = bb.y1 := by
  rcases next with _ | nh
  · simp [spanFor]
  · rcases hx : nh.bbox with _ | nb <;> simp [spanFor, hx]

theorem spanFor_end_some (pages : List ℚ) (h : HeadingEntry) (bb : BBox)
    (nh : HeadingEntry) (nb : BBox) (hnb : nh.bbox = some nb) :
    (spanFor pages h bb (some nh)).endPage = nh.pageNum - 1 ∧
      (spanFor pages h bb (some nh)).endY = nb.y0 := by
  simp [spanFor, hnb]

theorem spanFor_end_none (pages : List ℚ) (h : HeadingEntry) (bb : BBox) :
    (spanFor pages h bb none).endPage = pages.length - 1 ∧
      (spanFor pages h bb none).endY = lastHeight pages := by
  simp [spanFor]

theorem sectionSpans_cons (pages : List ℚ) (a : HeadingEntry) (rest : List HeadingEntry)
    (ba : BBox) (hba : a.bbox = some ba) :
    sectionSpans pages (a :: rest) =
      spanFor pages a ba rest.head? :: sectionSpans pages rest := by
  simp [sectionSpans, hba]

theorem get_sections_cons_none (extract : Nat → ℚ → ℚ → String) (pages : List ℚ)
    (a : HeadingEntry) (rest : List HeadingEntry) (hba : a.bbox = none) :
    get_sections extract pages (a :: rest) = get_sections extract pages rest := by
  simp [get_sections, hba]

theorem get_sections_cons_some (extract : Nat → ℚ → ℚ → String) (pages : List ℚ)
    (a : HeadingEntry) (rest : List HeadingEntry) (ba : BBox) (hba : a.bbox = some ba) :
    get_sections extract pages (a :: rest) =
      mkPySection extract pages a ba rest.head? :: get_sections extract pages rest := by
  simp [get_sections, hba]

/-! ### Claim C6 -/

/-- Claim C6 (corrected).  The original claim — section `i`'s end boundary
exactly equals section `i+1`'s start boundary, no gap — is false: for every
pair of consecutive sections the end of the first is the next heading's top
coordinate while the start of the second is that same heading's bottom
coordinate, so the boundaries lie on the same page but are separated by the
heading's own vertical extent; the final section ends at the bottom of the
last page. -/
theorem C6_section_boundaries (pages : List ℚ) (outline : List HeadingEntry) :
    (∀ h ∈ outline, h.bbox.isSome = true) →
    ((sectionSpans pages outline).length = outline.length) ∧
    (∀ i sa sb, (sectionSpans pages outline)[i]? = some sa →
        (sectionSpans pages outline)[i + 1]? = some sb →
        ∃ h bb, outline[i + 1]? = some h ∧ h.bbox = some bb ∧
          sa.endPage = h.pageNum - 1 ∧ sa.endY = bb.y0 ∧
          sb.startPage = h.pageNum - 1 ∧ sb.startY = bb.y1) ∧
    (∀ i sa, (sectionSpans pages outline)[i]? = some sa →
        (sectionSpans pages outline)[i + 1]? = none →
        sa.endPage = pages.length - 1 ∧ sa.endY = lastHeight pages) := by
  induction outline with
  | nil =>
    intro _
    refine ⟨rfl, ?_, ?_⟩
    · intro i sa sb hsa hsb
      simp [sectionSpans] at hsa
    · intro i sa hsa hnone
      simp [sectionSpans] at hsa
  | cons a rest ih =>
    intro hbb
    have ha : a.bbox.isSome = true := hbb a (List.mem_cons_self a rest)
    obtain ⟨ba, hba⟩ := Option.isSome_iff_exists.mp ha
    have hrest : ∀ h ∈ rest, h.bbox.isSome = true :=
      fun h hm => hbb h (List.mem_cons_of_mem a hm)
    obtain ⟨ihlen, ihadj, ihlast⟩ := ih hrest
    have hspan := sectionSpans_cons pages a rest ba hba
    refine ⟨?_, ?_, ?_⟩
    · rw [hspan]
      simp [ihlen]
    · intro i sa sb hsa hsb
      rw [hspan] at hsa hsb
      cases i with
      | zero =>
        simp only [List.getElem?_cons_zero, Option.some.injEq] at hsa
        simp only [List.getElem?_cons_succ] at hsb
        cases rest with
        | nil => simp [sectionSpans] at hsb
        | cons h2 rest2 =>
          have h2b : h2.bbox.isSome = true := hrest h2 (List.mem_cons_self h2 rest2)
          obtain ⟨b2, hb2⟩ := Option.isSome_iff_exists.mp h2b
          rw [sectionSpans_cons pages h2 rest2 b2 hb2] at hsb
          simp only [List.getElem?_cons_zero, Option.some.injEq] at hsb
          refine ⟨h2, b2, by simp, hb2, ?_, ?_, ?_, ?_⟩
          · rw [← hsa]
            exact (spanFor_end_some pages a ba h2 b2 hb2).1
          · rw [← hsa]
            exact (spanFor_end_some pages a ba h2 b2 hb2).2
          · rw [← hsb]
            exact (spanFor_start pages h2 b2 rest2.head?).1
          · rw [← hsb]
            exact (spanFor_start pages h2 b2 rest2.head?).2
      | succ n =>
        simp only [List.getElem?_cons_succ] at hsa hsb
        obtain ⟨h, bb, hh, hrest2⟩ := ihadj n sa sb hsa hsb
        exact ⟨h, bb, by simpa using hh, hrest2⟩
    · intro i sa hsa hnone
      rw [hspan] at hsa hnone
      cases i with
      | zero =>
        simp only [List.getElem?_cons_zero, Option.some.injEq] at hsa
        simp only [List.getElem?_cons_succ] at hnone
        have hrest_nil : rest = [] := by
          have hlen0 : (sectionSpans pages rest).length = 0 := by
            cases hsp : sectionSpans pages rest with
            | nil => rfl
            | cons s ss => rw [hsp] at hnone; simp at hnone
          rw [ihlen] at hlen0
          exact List.length_eq_zero.mp hlen0
        subst hrest_nil
        rw [← hsa]
        have hnil : (([] : List HeadingEntry)).head? = none := rfl
        rw [hnil]
        exact spanFor_end_none pages a ba
      | succ n =>
        simp only [List.getElem?_cons_succ] at hsa hnone
        exact ihlast n sa hsa hnone

/-- Witness for C6: on the two-heading document, the first section ends at the
second heading's top (y = 100) and the second section starts at its bottom
(y = 120), both on page index 0. -/
theorem C6_section_boundaries_witness :
    ∃ h bb, c6Outline[1]? = some h ∧ h.bbox = some bb ∧
      (SpanB.mk 0 20 0 100).endPage = h.pageNum - 1 ∧
      (SpanB.mk 0 20 0 100).endY = bb.y0 ∧
      (SpanB.mk 0 120 0 800).startPage = h.pageNum - 1 ∧
      (SpanB.mk 0 120 0 800).startY = bb.y1 :=
  (C6_section_boundaries [(800 : ℚ)] c6Outline (by decide)).2.1 0
    (SpanB.mk 0 20 0 100) (SpanB.mk 0 120 0 800) (by decide) (by decide)

/-- Counterexample for C6 as stated: the first section's end boundary is
`(page 0, y = 100)` while the second section's start boundary is
`(page 0, y = 120)` — they differ (the gap is heading B's own box), so end
and start boundaries are not equal. -/
theorem C6_boundary_gap_counterexample :
    sectionSpans [(800 : ℚ)] c6Outline =
      [SpanB.mk 0 20 0 100, SpanB.mk 0 120 0 800] ∧
    ¬ ((SpanB.mk 0 20 0 100).endY = (SpanB.mk 0 120 0 800).startY) := by
  exact ⟨by decide, by decide⟩

/-! ### Claim C9 -/

/-- Claim C9 (corrected).  An outline entry without a bounding box produces no
section at all: `get_sections` emits exactly one section per entry that
carries a bounding box (bbox-less entries are skipped by the `continue`), and
in particular an all-native outline yields an empty section list — there is no
degraded page-granularity fallback. -/
theorem C9_no_bbox_skipped (extract : Nat → ℚ → ℚ → String) (pages : List ℚ)
    (outline : List HeadingEntry) :
    ((get_sections extract pages outline).length =
      (outline.filter (fun h => h.bbox.isSome)).length) ∧
    ((∀ h ∈ outline, h.bbox = none) → get_sections extract pages outline = []) := by
  constructor
  · induction outline with
    | nil => rfl
    | cons a rest ih =>
      rcases hba : a.bbox with _ | ba
      · rw [get_sections_cons_none extract pages a rest hba]
        simp [List.filter_cons, hba, ih]
      · rw [get_sections_cons_some extract pages a rest ba hba]
        simp [List.filter_cons, hba, ih]
  · intro hall
    induction outline with
    | nil => rfl
    | cons a rest ih =>
      rw [get_sections_cons_none extract pages a rest (hall a (List.mem_cons_self a rest))]
      exact ih (fun h hm => hall h (List.mem_cons_of_mem a hm))

/-- Witness for C9: the singleton bbox-less outline yields no sections. -/
theorem C9_no_bbox_skipped_witness :
    get_sections (fun _ _ _ => ("")) [(800 : ℚ)] c9Outline = [] :=
  (C9_no_bbox_skipped (fun _ _ _ => ("")) [(800 : ℚ)] c9Outline).2 (by decide)

/-- Counterexample for C9 as stated: the claim predicts a page-level section
for the bbox-less heading, but the heading is skipped and the section list is
empty while the outline is not. -/
theorem C9_no_section_counterexample :
    get_sections (fun _ _ _ => ("x")) [(800 : ℚ)] c9Outline = [] ∧ c9Outline ≠ [] := by
  exact ⟨rfl, by decide⟩

/-! ### Claim C1 -/

/-- Claim C1 (confirmed).  The style-to-level mapping over surviving heading
candidates is determined by font size alone: bold and non-bold styles of equal
size receive the same level; a style whose size has rank `i` among the
distinct candidate sizes sorted descending receives level `i + 1` when
`i < 4` and no level otherwise; every candidate's size has a rank; the rank is
strictly monotone in descending size; assigned levels lie in 1..4; a block
whose style got no level produces no entry, and every emitted entry comes
from some candidate block. -/
theorem C1_style_level_by_size (hb : List Block) :
    (∀ s t : Style, s.size = t.size → style_to_level hb s = style_to_level hb t) ∧
    (∀ (s : Style) (i : Nat), idxOfZ s.size (candSizes hb) = some i →
        (i < 4 → style_to_level hb s = some (i + 1)) ∧
        (4 ≤ i → style_to_level hb s = none)) ∧
    (∀ b ∈ hb, ∃ i, idxOfZ b.style.size (candSizes hb) = some i) ∧
    (∀ (s t : Style) (i j : Nat), idxOfZ s.size (candSizes hb) = some i →
        idxOfZ t.size (candSizes hb) = some j → t.size < s.size → i < j) ∧
    (∀ (s : Style) (l : Nat), style_to_level hb s = some l → 1 ≤ l ∧ l ≤ 4) ∧
    (∀ (title : String) (b : Block), style_to_level hb b.style = none →
        mkEntry title (style_to_level hb) b = none) ∧
    (∀ (title : String) (e : HeadingEntry), e ∈ outlineFromBlocks title hb →
        ∃ b ∈ hb, mkEntry title (style_to_level hb) b = some e) := by
  refine ⟨?_, ?_, ?_, ?_, ?_, ?_, ?_⟩
  · exact fun s t h => stl_eq_of_size_eq hb s t h
  · intro s i hi
    exact ⟨fun h4 => stl_rank_lt hb s i hi h4, fun h4 => stl_rank_ge hb s i hi h4⟩
  · intro b hbm
    exact idxOfZ_mem b.style.size (candSizes hb)
      ((mem_candSizes hb b.style.size).mpr ⟨b, hbm, rfl⟩)
  · intro s t i j hi hj hlt
    exact idx_lt_of_gt (candSizes hb) (candSizes_strict hb) i j s.size t.size
      (idxOfZ_get s.size _ i hi) (idxOfZ_get t.size _ j hj) hlt
  · exact fun s l h => stl_bounds hb s l h
  · exact fun title b h => mkEntry_none_of_none title _ b h
  · exact fun title e h => (mem_outlineFromBlocks title hb e).mp h

/-- Witness for C1 on a concrete candidate set with sizes 20, 18, 16, 15, 14:
bold/non-bold 18 agree, size 20 is H1, the fifth size 14 gets no level and its
block is not emitted, and rank is monotone (rank of 20 below rank of 16). -/
theorem C1_style_level_by_size_witness :
    style_to_level c1Blocks ⟨18, false⟩ = style_to_level c1Blocks ⟨18, true⟩ ∧
    style_to_level c1Blocks ⟨20, true⟩ = some 1 ∧
    style_to_level c1Blocks ⟨14, false⟩ = none ∧
    (0 : Nat) < 2 ∧
    mkEntry ("T") (style_to_level c1Blocks)
      ⟨"Zeta", ⟨14, false⟩, ⟨0, 96, 500, 99⟩, 2, 1, 1⟩ = none :=
  ⟨(C1_style_level_by_size c1Blocks).1 ⟨18, false⟩ ⟨18, true⟩ rfl,
   ((C1_style_level_by_size c1Blocks).2.1 ⟨20, true⟩ 0 (by decide)).1 (by decide),
   ((C1_style_level_by_size c1Blocks).2.1 ⟨14, false⟩ 4 (by decide)).2 (by decide),
   (C1_style_level_by_size c1Blocks).2.2.2.1 ⟨20, true⟩ ⟨16, false⟩ 0 2
     (by decide) (by decide) (by decide),
   (C1_style_level_by_size c1Blocks).2.2.2.2.2.1 ("T")
     ⟨"Zeta", ⟨14, false⟩, ⟨0, 96, 500, 99⟩, 2, 1, 1⟩ (by decide)⟩

/-! ### Claim C2 -/

/-- Claim C2 (confirmed).  Whenever an emitted heading entry's normalized text
begins with the numbering pattern (digits separated by single periods, then
whitespace), its level is `dot count + 1` whatever the style-derived level
was; and a candidate whose normalized text is `"3.2.1 Setup"` is emitted with
level `H3` for every style-derived level. -/
theorem C2_numbering_override (title : String) (stl : Style → Option Nat)
    (b : Block) (e : HeadingEntry) :
    (∀ d : Nat, numDots (normText b.text).toList = some d →
        mkEntry title stl b = some e → e.level = d + 1) ∧
    (normText b.text = ("3.2.1 Setup") → ∀ lvl, stl b.style = some lvl →
        mkEntry title stl b =
          some ⟨("3.2.1 Setup"), 3, b.pageNum, some b.bbox⟩) := by
  constructor
  · intro d hnd hmk
    obtain ⟨_, _, _, hlev⟩ := mkEntry_spec title stl b e hmk
    rcases hlev with ⟨d2, hnd2, hl⟩ | ⟨hnone, _⟩
    · rw [hnd] at hnd2
      cases hnd2
      exact hl
    · rw [hnd] at hnone
      cases hnone
  · intro hnt lvl hstl
    have hnd : numDots (normText b.text).toList = some 2 := by
      rw [hnt]
      decide
    have h := mkEntry_override title stl b lvl 2 hstl hnd (by decide)
    rw [hnt] at h
    exact h

/-- Witness for C2: the block with raw text `"3.2.1   Setup"` (double spaces)
and any style-derived level is emitted as `"3.2.1 Setup"` with level 3. -/
theorem C2_numbering_override_witness :
    (HeadingEntry.mk ("3.2.1 Setup") 3 2 (some ⟨0, 10, 500, 20⟩)).level = 2 + 1 ∧
    mkEntry ("T") (fun _ => some 1) c2Block =
      some ⟨("3.2.1 Setup"), 3, 2, some ⟨0, 10, 500, 20⟩⟩ :=
  ⟨(C2_numbering_override ("T") (fun _ => some 1) c2Block
      ⟨("3.2.1 Setup"), 3, 2, some ⟨0, 10, 500, 20⟩⟩).1 2 (by decide) (by decide),
   (C2_numbering_override ("T") (fun _ => some 1) c2Block
      ⟨("x"), 0, 0, none⟩).2 (by decide) 1 rfl⟩

/-! ### Claim C3 -/

/-- Claim C3 (corrected).  Every entry of `get_outline` has level between 1
and 4 unless it was produced by the numeric-prefix override, whose level is
`dot count + 1` and can exceed 4; native-path entries always lie in 1..4. -/
theorem C3_level_range (title : String) (toc : List TocEntry)
    (pages : List (List RawBlock)) (e : HeadingEntry)
    (h : e ∈ (getOutline title toc pages).2) :
    (1 ≤ e.level ∧ e.level ≤ 4) ∨
      (∃ d, numDots e.text.toList = some d ∧ e.level = d + 1) := by
  rcases mem_getOutline title toc pages e h with hn | hh
  · exact Or.inl ⟨(mem_nativeOutline toc e hn).1, (mem_nativeOutline toc e hn).2.1⟩
  · obtain ⟨body, hbody, b, hb, hmk⟩ := mem_heuristicOutline title pages e hh
    obtain ⟨htext, _, _, hlev⟩ := mkEntry_spec _ _ _ _ hmk
    rcases hlev with ⟨d, hnd, hl⟩ | ⟨hnone, hstl⟩
    · exact Or.inr ⟨d, by rw [htext]; exact hnd, hl⟩
    · exact Or.inl (stl_bounds _ _ _ hstl)

/-- Witness for C3: applied to the deep-numbered one-heading document, whose
emitted entry has level 5 via the override with 4 dots. -/
theorem C3_level_range_witness :
    (1 ≤ (5 : Nat) ∧ (5 : Nat) ≤ 4) ∨
      (∃ d, numDots (("1.1.1.1.1 Overview").toList) = some d ∧ 5 = d + 1) :=
  C3_level_range ("") [] c3pages
    ⟨("1.1.1.1.1 Overview"), 5, 1, some ⟨0, 100, 500, 120⟩⟩ (by decide)

/-- Counterexample for C3 as stated: the heuristic pipeline emits an entry of
level `H5` (not an ordinal between 1 and 4) for the candidate
`"1.1.1.1.1 Overview"`. -/
theorem C3_level_five_counterexample :
    ((getOutline ("") [] c3pages).2.map (fun e => e.level)) = [5] ∧ ¬ ((5 : Nat) ≤ 4) := by
  exact ⟨by decide, by decide⟩

/-! ### Claim C5 -/

/-- Claim C5 (confirmed).  When some block is substantial, body-style
inference returns a style of a substantial block whose total word count over
substantial blocks is maximal; when no block is substantial but blocks exist,
it returns a style of maximal block count; with no blocks it returns `none`,
and the caller then produces an empty outline. -/
theorem C5_body_style (blocks : List Block) :
    ((∃ b ∈ blocks, substantial b = true) →
        ∃ s, find_body_style blocks = some s ∧
          (∃ b ∈ blocks, substantial b = true ∧ b.style = s) ∧
          ∀ t, substWords blocks t ≤ substWords blocks s) ∧
    ((blocks ≠ [] ∧ ∀ b ∈ blocks, substantial b = false) →
        ∃ s, find_body_style blocks = some s ∧ (∃ b ∈ blocks, b.style = s) ∧
          ∀ t, styleCount blocks t ≤ styleCount blocks s) ∧
    (blocks = [] → find_body_style blocks = none) ∧
    (∀ (title : String) (pages : List (List RawBlock)), getTextBlocks pages = [] →
        getOutline title [] pages = (title, [])) := by
  refine ⟨?_, ?_, ?_, ?_⟩
  · rintro ⟨b, hbm, hbs⟩
    have hne := styleWordCounts_ne_nil blocks b hbm hbs
    cases hswc : styleWordCounts blocks with
    | nil => exact absurd hswc hne
    | cons p rest =>
      obtain ⟨v, hmem, hmax⟩ :=
        maxByFirst_spec (p :: rest) (maxPair p rest).1 rfl
      refine ⟨(maxPair p rest).1, ?_, ?_, ?_⟩
      · unfold find_body_style
        rw [hswc, if_neg (by simp)]
        rfl
      · refine mem_fst_styleWordCounts blocks _ ?_
        rw [hswc]
        exact List.mem_map.mpr ⟨((maxPair p rest).1, v), hmem, rfl⟩
      · intro t
        have hsv : substWords blocks (maxPair p rest).1 = v := by
          rw [← cnt_styleWordCounts, hswc]
          exact cnt_eq_of_mem _ _ _ (hswc ▸ keysNodup_styleWordCounts blocks) hmem
        rw [hsv, ← cnt_styleWordCounts, hswc]
        rcases cnt_zero_or_mem (p :: rest) t with h0 | hm
        · omega
        · exact hmax _ hm
  · rintro ⟨hne, hnosub⟩
    have hswc : styleWordCounts blocks = [] := styleWordCounts_nil blocks hnosub
    have hsf := styleFreq_ne_nil blocks hne
    cases hsfreq : styleFreq blocks with
    | nil => exact absurd hsfreq hsf
    | cons p rest =>
      obtain ⟨v, hmem, hmax⟩ :=
        maxByFirst_spec (p :: rest) (maxPair p rest).1 rfl
      refine ⟨(maxPair p rest).1, ?_, ?_, ?_⟩
      · unfold find_body_style
        rw [hswc, if_pos rfl, hsfreq]
        rfl
      · refine mem_fst_styleFreq blocks _ ?_
        rw [hsfreq]
        exact List.mem_map.mpr ⟨((maxPair p rest).1, v), hmem, rfl⟩
      · intro t
        have hsv : styleCount blocks (maxPair p rest).1 = v := by
          rw [← cnt_styleFreq, hsfreq]
          exact cnt_eq_of_mem _ _ _ (hsfreq ▸ keysNodup_styleFreq blocks) hmem
        rw [hsv, ← cnt_styleFreq, hsfreq]
        rcases cnt_zero_or_mem (p :: rest) t with h0 | hm
        · omega
        · exact hmax _ hm
  · intro hnil
    subst hnil
    rfl
  · intro title pages hempty
    simp [getOutline, heuristicOutline, hempty]

/-- Witness for C5: on the two-block document the substantial body paragraph
style `(12, regular)` wins body-style inference. -/
theorem C5_body_style_witness :
    ∃ s, find_body_style c5Blocks = some s ∧
      (∃ b ∈ c5Blocks, substantial b = true ∧ b.style = s) ∧
      ∀ t, substWords c5Blocks t ≤ substWords c5Blocks s :=
  (C5_body_style c5Blocks).1
    ⟨⟨"body text", ⟨12, false⟩, ⟨0, 100, 500, 200⟩, 1, 3, 25⟩, by decide, by decide⟩

/-! ### Claim C7 -/

/-- Claim C7 (corrected).  Only the metadata path guarantees the absence of a
trailing file extension: whenever the stripped metadata title passes the
acceptance test it is returned and carries none of the checked extensions.
The largest-first-page-text fallback imposes no such restriction (see the
counterexample, which returns `"thesis.pdf"`). -/
theorem C7_metadata_title_no_extension (meta : Option String)
    (blocksTop : List RawBlock) (t : String) (h : accept_meta meta = some t) :
    extract_title meta blocksTop = t ∧ extSuffix t = false := by
  constructor
  · unfold extract_title
    rw [h]
  · unfold accept_meta at h
    rcases meta with _ | raw
    · cases h
    · simp only at h
      split at h
      · cases h
      · split at h
        case isTrue hc =>
          cases h
          cases hx : extSuffix (stripChars raw.toList).asString
          · rfl
          · exact absurd hx hc.2.1
        case isFalse hc => cases h

/-- Witness for C7: an ordinary metadata title is returned unchanged and has
no trailing extension. -/
theorem C7_metadata_title_no_extension_witness :
    extract_title (some ("A Real Document Title")) c7TopBlocks =
      ("A Real Document Title") ∧
    extSuffix ("A Real Document Title") = false :=
  C7_metadata_title_no_extension (some ("A Real Document Title")) c7TopBlocks
    ("A Real Document Title") (by decide)

/-- Counterexample for C7 as stated: with no usable metadata, the fallback
path returns the largest first-page line verbatim, here the filename-like
string `"thesis.pdf"`, which does carry a file-extension suffix. -/
theorem C7_fallback_extension_counterexample :
    extract_title none c7TopBlocks = ("thesis.pdf") ∧
      extSuffix ("thesis.pdf") = true := by
  exact ⟨by decide, by decide⟩

/-! ### Claim C8 -/

/-- Claim C8 (corrected).  The native outline is returned — and the heuristic
pipeline skipped — exactly when the toc is present and its filtered form
(levels 1 to 4, text containing a letter) is non-empty; every returned native
entry then has level in 1..4, alphabetic text and no bounding box.  When
filtering empties the toc, the heuristic pipeline runs even though the PDF
carries a native outline (see the counterexample). -/
theorem C8_native_fast_path (title : String) (toc : List TocEntry)
    (pages : List (List RawBlock)) (h1 : toc ≠ []) (h2 : nativeOutline toc ≠ []) :
    getOutline title toc pages = (title, nativeOutline toc) ∧
      ∀ e ∈ nativeOutline toc,
        1 ≤ e.level ∧ e.level ≤ 4 ∧ e.bbox = none ∧ hasAlpha e.text.toList = true := by
  refine ⟨?_, fun e he => mem_nativeOutline toc e he⟩
  unfold getOutline
  rw [if_neg h1, if_neg h2]

/-- Witness for C8: a singleton toc with an alphabetic entry is returned
verbatim whatever the page content is. -/
theorem C8_native_fast_path_witness :
    getOutline ("T") [⟨2, "Intro", 3⟩] c3pages =
      (("T"), nativeOutline [⟨2, "Intro", 3⟩]) :=
  (C8_native_fast_path ("T") [⟨2, "Intro", 3⟩] c3pages (by decide) (by decide)).1

/-- Counterexample for C8 as stated: the PDF carries a native outline
(`c8Toc ≠ []`), but because its only entry has no alphabetic character the
filtered outline is empty and `get_outline` runs the heuristic pipeline,
returning a box-carrying heuristic heading instead of the native outline. -/
theorem C8_fallthrough_counterexample :
    c8Toc ≠ [] ∧ nativeOutline c8Toc = [] ∧
      (getOutline ("") c8Toc c8Pages).2 =
        [⟨("Heading One"), 1, 1, some ⟨0, 100, 500, 120⟩⟩] := by
  exact ⟨by decide, by decide, by decide⟩

/-! ### Claim C10 -/

/-- Claim C10 (confirmed).  Ranking output is sorted descending by relevance
score, is a permutation of the scored input, breaks ties by original input
order (the score-class subsequences are preserved exactly), and re-running on
identical inputs and similarities yields the same order. -/
theorem C10_rank_sections (sim : String → String → ℚ) (persona task : String)
    (secs : List Sec) :
    (rank_sections sim persona task secs).Pairwise
      (fun a b => b.score ≤ a.score) ∧
    List.Perm (rank_sections sim persona task secs)
      (scoredSections sim persona task secs) ∧
    (∀ q : ℚ,
      (rank_sections sim persona task secs).filter (fun s => decide (s.score = q))
        = (scoredSections sim persona task secs).filter
            (fun s => decide (s.score = q))) ∧
    rank_sections sim persona task secs = rank_sections sim persona task secs := by
  have htrans : ∀ a b c : RankedSec, (decide (b.score ≤ a.score)) = true →
      (decide (c.score ≤ b.score)) = true → (decide (c.score ≤ a.score)) = true := by
    intro a b c h1 h2
    simp only [decide_eq_true_eq] at h1 h2 ⊢
    exact le_trans h2 h1
  have htot : ∀ a b : RankedSec, (decide (b.score ≤ a.score)) = true ∨
      (decide (a.score ≤ b.score)) = true := by
    intro a b
    rcases le_total b.score a.score with h | h
    · exact Or.inl (by simpa using h)
    · exact Or.inr (by simpa using h)
  unfold rank_sections
  split
  case isTrue hnil =>
    subst hnil
    exact ⟨List.Pairwise.nil, List.Perm.refl _, fun q => rfl, rfl⟩
  case isFalse hnil =>
    refine ⟨?_, stableSortBy_perm _ _, ?_, rfl⟩
    · exact (stableSortBy_pairwise _ htrans htot _).imp (fun h => by simpa using h)
    · intro q
      refine stableSortBy_filter _ _ ?_ _
      intro a b ha hb
      simp only [decide_eq_true_eq] at ha hb ⊢
      rw [ha, hb]

/-! ### Claim C4 -/

/-- Claim C4 (code bug).  The claim says a block whose text starts with a
bullet glyph is rejected by candidate filtering, and that is clearly the
intent; but the source's regex character class holds the three mojibake
characters of a mis-encoded bullet rather than the bullet itself, so the
block `"• Item"` (prominent bold style, 2 words, 1 line, clean ending)
survives filtering.  Hyphen, asterisk and alphanumeric-parenthesis markers
work as specified, and the stray mojibake characters are (wrongly) treated
as markers. -/
theorem C4_bullet_filter_bug :
    keepBlock ⟨12, false⟩ c4Block = true ∧
    listItemStart (("• Item").toList) = false ∧
    listItemStart (("- Item").toList) = true ∧
    listItemStart (("* Item").toList) = true ∧
    listItemStart (("a) Item").toList) = true ∧
    listItemStart (("â Item").toList) = true := by
  exact ⟨by decide, by decide, by decide, by decide, by decide, by decide⟩

end PDF1B
